import Mathlib

set_option autoImplicit false

/-!
Verification of the denpabot chat-moderation core (src/src/main.rs).

Strings are modelled as their character sequences (`List Char`), matching the
Rust code's use of `str::chars()` iterators throughout the matching engine.
Byte lengths (Rust `str::len`) are modelled by summing the UTF-8 size of each
character. The trie's `HashMap<char, TrieNode>` children are modelled as an
association list; the code only uses point lookups and single-key updates, for
which the association list is an exact refinement.
-/

namespace Denpabot

/-- TrieNode (main.rs lines 21-25): children map plus an end-of-phrase flag. -/
inductive TrieNode : Type where
  | mk (children : List (Char × TrieNode)) (e : Bool)

def TrieNode.children : TrieNode → List (Char × TrieNode)
  | .mk cs _ => cs

def TrieNode.isEnd : TrieNode → Bool
  | .mk _ e => e

/-- TrieNode::default(): no children, end flag false. -/
def TrieNode.empty : TrieNode := .mk [] false

/-- Point lookup in the children map (HashMap::get). -/
def lookupChild : List (Char × TrieNode) → Char → Option TrieNode
  | [], _ => none
  | (d, t) :: rest, c => if d = c then some t else lookupChild rest c

/-- Single-key update of the children map (HashMap::insert followed by get_mut). -/
def setChild : List (Char × TrieNode) → Char → TrieNode → List (Char × TrieNode)
  | [], c, t => [(c, t)]
  | (d, u) :: rest, c, t => if d = c then (c, t) :: rest else (d, u) :: setChild rest c t

/-- Trie (main.rs lines 27-30): a root node. -/
structure Trie : Type where
  root : TrieNode

instance : Inhabited Trie := ⟨⟨TrieNode.empty⟩⟩

/-- Trie::default(). -/
def Trie.empty : Trie := ⟨TrieNode.empty⟩

/-- Trie::reset (main.rs lines 33-35): replace the root with a default node. -/
def Trie.reset (_ : Trie) : Trie := Trie.empty

/-- Descend along the word, creating default nodes for missing children, and set
the end flag on the final node (the loop body of Trie::insert, lines 41-48). -/
def insertChars : TrieNode → List Char → TrieNode
  | .mk cs _, [] => .mk cs true
  | .mk cs e, c :: rest =>
    .mk (setChild cs c (insertChars ((lookupChild cs c).getD TrieNode.empty) rest)) e

/-- Trie::insert (main.rs lines 37-49): no-op on the empty word (byte length 0
iff the character list is empty), otherwise descend and mark the end node. -/
def Trie.insert (t : Trie) (w : List Char) : Trie :=
  if w = [] then t else ⟨insertChars t.root w⟩

/-- UTF-8 encoded size of one character, as used by Rust's `str::len`. -/
def utf8Len (c : Char) : Nat :=
  if c.toNat < 0x80 then 1
  else if c.toNat < 0x800 then 2
  else if c.toNat < 0x10000 then 3
  else 4

/-- Rust `str::len`: the byte length of the UTF-8 encoding. -/
def byteLen (s : List Char) : Nat := (s.map utf8Len).sum

/-- Inner loop of Trie::find_matches (main.rs lines 59-78): walk the trie along
the characters, pushing the span (start, start + e) at every end-of-phrase node
passed, stopping at the first character with no matching child. The counter `e`
models the local variable `end` (0 at the first consumed character). -/
def walkFrom : TrieNode → List Char → Nat → Nat → List (Nat × Nat)
  | _, [], _, _ => []
  | node, c :: rest, start, e =>
    match lookupChild node.children c with
    | some child =>
      (if child.isEnd then [(start, start + e)] else []) ++ walkFrom child rest start (e + 1)
    | none => []

/-- Trie::find_matches (main.rs lines 51-83). The outer loop runs `start` over
`0..input.len()` — the BYTE length — while the cursor iterator advances one
CHARACTER per iteration, so iteration `start` walks from `input.drop start`
(the saturating drop models the exhausted iterator once `start` exceeds the
character count). -/
def Trie.find_matches (t : Trie) (input : List Char) : List (Nat × Nat) :=
  (List.range (byteLen input)).flatMap fun start => walkFrom t.root (input.drop start) start 0

/-- Loop body of Trie::find_word (main.rs lines 86-97): walk from the given
node only, returning true at the first end-of-phrase node reached. -/
def fwAux : TrieNode → List Char → Bool
  | _, [] => false
  | node, c :: rest =>
    match lookupChild node.children c with
    | some child => if child.isEnd then true else fwAux child rest
    | none => false

/-- Trie::find_word (main.rs lines 85-98): a single walk from the root along
the input's characters (it does NOT restart at later offsets). -/
def Trie.find_word (t : Trie) (input : List Char) : Bool := fwAux t.root input

/-- Specification-side helper: the walk from `t` along `v` exists and ends on an
end-of-phrase node (the trie content predicate). -/
def accepts : TrieNode → List Char → Bool
  | t, [] => t.isEnd
  | t, c :: rest =>
    match lookupChild t.children c with
    | some u => accepts u rest
    | none => false

/-- Insert a list of phrases in order (repeated Trie::insert calls). -/
def insertList (t : Trie) (ps : List (List Char)) : Trie :=
  ps.foldl Trie.insert t

/-! ### Children-map lemmas -/

@[simp] theorem children_mk (cs : List (Char × TrieNode)) (e : Bool) :
    (TrieNode.mk cs e).children = cs := rfl

@[simp] theorem isEnd_mk (cs : List (Char × TrieNode)) (e : Bool) :
    (TrieNode.mk cs e).isEnd = e := rfl

theorem lookupChild_setChild (cs : List (Char × TrieNode)) (c d : Char) (t : TrieNode) :
    lookupChild (setChild cs c t) d = if c = d then some t else lookupChild cs d := by
  induction cs with
  | nil => simp [setChild, lookupChild]
  | cons p rest ih =>
    obtain ⟨d', u⟩ := p
    simp only [setChild]
    by_cases h1 : d' = c
    · subst h1
      by_cases h2 : d' = d
      · subst h2
        simp [lookupChild]
      · simp [lookupChild, h2]
    · simp only [if_neg h1, lookupChild, ih]
      by_cases h2 : d' = d
      · subst h2
        have hcd : ¬ c = d' := fun h => h1 h.symm
        simp [hcd]
      · simp [h2]

/-! ### Trie insertion correctness -/

theorem accepts_empty (v : List Char) : accepts TrieNode.empty v = false := by
  cases v with
  | nil => rfl
  | cons c v' => rfl

theorem accepts_insertChars (w : List Char) :
    ∀ (t : TrieNode) (v : List Char),
      accepts (insertChars t w) v = true ↔ (accepts t v = true ∨ v = w) := by
  induction w with
  | nil =>
    intro t v
    obtain ⟨cs, e⟩ := t
    cases v with
    | nil => simp [insertChars, accepts]
    | cons d v' => simp [insertChars, accepts]
  | cons c w' ih =>
    intro t v
    obtain ⟨cs, e⟩ := t
    cases v with
    | nil => simp [insertChars, accepts]
    | cons d v' =>
      by_cases h : c = d
      · subst h
        cases hl : lookupChild cs c with
        | none =>
          simp [insertChars, accepts, lookupChild_setChild, hl, ih, accepts_empty]
        | some u =>
          simp [insertChars, accepts, lookupChild_setChild, hl, ih]
      · cases hl : lookupChild cs d with
        | none =>
          simp only [insertChars, accepts, children_mk, lookupChild_setChild, if_neg h, hl]
          simp
          exact fun hdc => (h hdc.symm).elim
        | some u =>
          simp only [insertChars, accepts, children_mk, lookupChild_setChild, if_neg h, hl]
          simp
          exact fun hdc => (h hdc.symm).elim

theorem accepts_insert (t : Trie) (w v : List Char) :
    accepts (t.insert w).root v = true ↔ (accepts t.root v = true ∨ (v = w ∧ w ≠ [])) := by
  by_cases hw : w = []
  · subst hw
    simp [Trie.insert]
  · simp [Trie.insert, hw, accepts_insertChars]

theorem accepts_insertList (ps : List (List Char)) :
    ∀ (t : Trie) (v : List Char),
      accepts (insertList t ps).root v = true ↔
        (accepts t.root v = true ∨ (v ∈ ps ∧ v ≠ [])) := by
  induction ps with
  | nil => simp [insertList]
  | cons w ps' ih =>
    intro t v
    have : insertList t (w :: ps') = insertList (t.insert w) ps' := rfl
    rw [this, ih, accepts_insert]
    simp only [List.mem_cons]
    constructor
    · rintro ((h | ⟨rfl, hne⟩) | ⟨hm, hne⟩)
      · exact Or.inl h
      · exact Or.inr ⟨Or.inl rfl, hne⟩
      · exact Or.inr ⟨Or.inr hm, hne⟩
    · rintro (h | ⟨(rfl | hm), hne⟩)
      · exact Or.inl (Or.inl h)
      · exact Or.inl (Or.inr ⟨rfl, hne⟩)
      · exact Or.inr ⟨hm, hne⟩

theorem accepts_insertList_empty (ps : List (List Char)) (v : List Char) :
    accepts (insertList Trie.empty ps).root v = true ↔ (v ∈ ps ∧ v ≠ []) := by
  rw [accepts_insertList]
  simp [Trie.empty, accepts_empty]

/-! ### Scan characterization -/

theorem utf8Len_pos (c : Char) : 1 ≤ utf8Len c := by
  unfold utf8Len
  split
  · omega
  · split
    · omega
    · split <;> omega

theorem length_le_byteLen (s : List Char) : s.length ≤ byteLen s := by
  induction s with
  | nil => simp [byteLen]
  | cons c s' ih =>
    have := utf8Len_pos c
    simp only [byteLen, List.length_cons, List.map_cons, List.sum_cons] at ih ⊢
    omega

theorem mem_walkFrom (cs : List Char) :
    ∀ (node : TrieNode) (s e : Nat) (p : Nat × Nat),
      p ∈ walkFrom node cs s e ↔
        ∃ w tail, cs = w ++ tail ∧ w ≠ [] ∧ accepts node w = true ∧
          p.1 = s ∧ p.2 + 1 = s + e + w.length := by
  induction cs with
  | nil =>
    intro node s e p
    simp only [walkFrom, List.not_mem_nil, false_iff]
    rintro ⟨w, tail, hsplit, hne, -⟩
    exact hne (List.append_eq_nil.mp hsplit.symm).1
  | cons c rest ih =>
    intro node s e p
    cases hl : lookupChild node.children c with
    | none =>
      simp only [walkFrom, hl, List.not_mem_nil, false_iff]
      rintro ⟨w, tail, hsplit, hne, hacc, -⟩
      cases w with
      | nil => exact hne rfl
      | cons c' w' =>
        simp only [List.cons_append] at hsplit
        injection hsplit with h1 h2
        subst h1
        simp [accepts, hl] at hacc
    | some child =>
      simp only [walkFrom, hl, List.mem_append]
      constructor
      · intro h
        rcases h with h | h
        · by_cases hend : child.isEnd = true
          · rw [if_pos hend, List.mem_singleton] at h
            refine ⟨[c], rest, rfl, by simp, ?_, ?_, ?_⟩
            · simp [accepts, hl, hend]
            · simp [h]
            · simp [h]
          · rw [if_neg hend] at h
            exact absurd h (List.not_mem_nil p)
        · rcases (ih child s (e + 1) p).mp h with ⟨w', tail, hsplit, hne, hacc, hp1, hp2⟩
          refine ⟨c :: w', tail, by simp [hsplit], by simp, ?_, hp1, ?_⟩
          · simp [accepts, hl, hacc]
          · simp only [List.length_cons]
            omega
      · rintro ⟨w, tail, hsplit, hne, hacc, hp1, hp2⟩
        cases w with
        | nil => exact (hne rfl).elim
        | cons c' w' =>
          simp only [List.cons_append] at hsplit
          injection hsplit with h1 h2
          subst h1
          have hacc' : accepts child w' = true := by simpa [accepts, hl] using hacc
          cases w' with
          | nil =>
            left
            have hend : child.isEnd = true := by simpa using hacc'
            rw [if_pos hend, List.mem_singleton]
            simp only [List.length_cons, List.length_nil] at hp2
            exact Prod.ext_iff.mpr ⟨hp1, by omega⟩
          | cons c2 w2 =>
            right
            refine (ih child s (e + 1) p).mpr ⟨c2 :: w2, tail, h2, by simp, hacc', hp1, ?_⟩
            simp only [List.length_cons] at hp2 ⊢
            omega

theorem mem_find_matches (t : Trie) (input : List Char) (p : Nat × Nat) :
    p ∈ t.find_matches input ↔
      ∃ w tail, input.drop p.1 = w ++ tail ∧ w ≠ [] ∧ accepts t.root w = true ∧
        p.2 + 1 = p.1 + w.length := by
  unfold Trie.find_matches
  rw [List.mem_flatMap]
  constructor
  · rintro ⟨s, hs, hp⟩
    rcases (mem_walkFrom _ _ _ _ _).mp hp with ⟨w, tail, hsplit, hne, hacc, hp1, hp2⟩
    exact ⟨w, tail, by rw [hp1]; exact hsplit, hne, hacc, by omega⟩
  · rintro ⟨w, tail, hsplit, hne, hacc, hp2⟩
    refine ⟨p.1, ?_, (mem_walkFrom _ _ _ _ _).mpr ⟨w, tail, hsplit, hne, hacc, rfl, by omega⟩⟩
    rw [List.mem_range]
    have h1 : (input.drop p.1).length = input.length - p.1 := List.length_drop _ _
    have h2 : 0 < w.length := List.length_pos.mpr hne
    have h3 : (input.drop p.1).length = w.length + tail.length := by
      rw [hsplit]; simp
    have hlen : p.1 < input.length := by omega
    exact lt_of_lt_of_le hlen (length_le_byteLen input)

theorem fwAux_eq_true (cs : List Char) :
    ∀ node : TrieNode,
      fwAux node cs = true ↔ ∃ w tail, cs = w ++ tail ∧ w ≠ [] ∧ accepts node w = true := by
  induction cs with
  | nil =>
    intro node
    simp only [fwAux, Bool.false_eq_true, false_iff]
    rintro ⟨w, tail, hsplit, hne, -⟩
    exact hne (List.append_eq_nil.mp hsplit.symm).1
  | cons c rest ih =>
    intro node
    cases hl : lookupChild node.children c with
    | none =>
      simp only [fwAux, hl, Bool.false_eq_true, false_iff]
      rintro ⟨w, tail, hsplit, hne, hacc⟩
      cases w with
      | nil => exact hne rfl
      | cons c' w' =>
        simp only [List.cons_append] at hsplit
        injection hsplit with h1 h2
        subst h1
        simp [accepts, hl] at hacc
    | some child =>
      by_cases hend : child.isEnd = true
      · simp only [fwAux, hl, hend, if_true, true_iff]
        exact ⟨[c], rest, rfl, by simp, by simp [accepts, hl, hend]⟩
      · simp only [fwAux, hl, if_neg hend]
        rw [ih child]
        constructor
        · rintro ⟨w', tail, hsplit, hne, hacc⟩
          exact ⟨c :: w', tail, by simp [hsplit], by simp, by simp [accepts, hl, hacc]⟩
        · rintro ⟨w, tail, hsplit, hne, hacc⟩
          cases w with
          | nil => exact (hne rfl).elim
          | cons c' w' =>
            simp only [List.cons_append] at hsplit
            injection hsplit with h1 h2
            subst h1
            have hacc' : accepts child w' = true := by simpa [accepts, hl] using hacc
            cases w' with
            | nil =>
              have : child.isEnd = true := by simpa using hacc'
              exact (hend this).elim
            | cons c2 w2 => exact ⟨c2 :: w2, tail, h2, by simp, hacc'⟩

theorem find_matches_charBound (t : Trie) (input : List Char) :
    t.find_matches input =
      (List.range input.length).flatMap fun start => walkFrom t.root (input.drop start) start 0 := by
  unfold Trie.find_matches
  have hb : byteLen input = input.length + (byteLen input - input.length) :=
    (Nat.add_sub_cancel' (length_le_byteLen input)).symm
  rw [hb, List.range_add, List.flatMap_append]
  have hz : ((List.range (byteLen input - input.length)).map fun x => input.length + x).flatMap
      (fun start => walkFrom t.root (input.drop start) start 0) = [] := by
    rw [List.flatMap_eq_nil_iff]
    intro s hs
    rcases List.mem_map.mp hs with ⟨x, -, rfl⟩
    rw [List.drop_eq_nil_of_le (by omega)]
    rfl
  rw [hz, List.append_nil]

/-! ### Match resolver (Handler::message, main.rs lines 183-207) -/

/-- Body of the nested resolver loops (lines 188-196): start from `censors.len()`
checks and decrement once (the inner `break`) for every censor span having some
allow span with `allow.0 <= censor.0 && allow.1 >= censor.1`. -/
def remaining (censors allows : List (Nat × Nat)) : Nat :=
  censors.foldl
    (fun checks censor =>
      if allows.any (fun allow => decide (allow.1 ≤ censor.1 ∧ censor.2 ≤ allow.2)) then
        checks - 1
      else checks)
    censors.length

/-- Suppression verdict (lines 185 and 197): nothing happens when there are no
censor matches; otherwise the message is deleted iff `checks > 0` remain. -/
def suppressed (censors allows : List (Nat × Nat)) : Bool :=
  if censors.isEmpty then false else decide (0 < remaining censors allows)

/-! ### d!remove (Handler::message, main.rs lines 162-174) -/

/-- Remove a banned word by 1-based position: `idx = parse(n) - 1` on `usize`
(two's-complement wrap-around modelled as arithmetic mod 2^64 =
18446744073709551616, the release-profile semantics of the subtraction), then
erase only when `idx < words.len()`. -/
def removeWord (words : List (List Char)) (n : Nat) : List (List Char) :=
  let idx := (n + (18446744073709551616 - 1)) % 18446744073709551616
  if idx < words.length then words.eraseIdx idx else words

/-! ### Token resolution (main, main.rs lines 305-312) -/

/-- Loop over ENV_PATHS: each successfully read candidate file overwrites the
token, which starts as the empty string. The list holds the read result for
each candidate path in ENV_PATHS order ("./env/" first, then "../../env/"). -/
def readToken (reads : List (Option (List Char))) : List Char :=
  reads.foldl (fun tok r => match r with | some s => s | none => tok) []

/-! ### Resolver lemmas -/

theorem foldl_sub_count (p : Nat × Nat → Bool) (l : List (Nat × Nat)) :
    ∀ k, l.countP p ≤ k →
      l.foldl (fun checks c => if p c then checks - 1 else checks) k = k - l.countP p := by
  induction l with
  | nil => intro k h; simp
  | cons c l' ih =>
    intro k h
    by_cases hc : p c = true
    · rw [List.foldl_cons, if_pos hc]
      rw [List.countP_cons_of_pos _ _ hc] at h ⊢
      rw [ih (k - 1) (by omega)]
      omega
    · rw [List.foldl_cons, if_neg hc]
      rw [List.countP_cons_of_neg _ _ hc] at h ⊢
      exact ih k h

theorem remaining_eq (censors allows : List (Nat × Nat)) :
    remaining censors allows =
      censors.length -
        censors.countP (fun c => allows.any fun a => decide (a.1 ≤ c.1 ∧ c.2 ≤ a.2)) :=
  foldl_sub_count _ _ _ (List.countP_le_length _)

/-! ### Claims -/

/-- C1: for every set of non-empty phrases inserted into the Trie and every input
text, find_matches reports the span (i, j) exactly when some stored phrase occurs
at character offset i of the text (the text's characters starting at i equal the
phrase), with j the inclusive end offset (j + 1 = i + |P|). All occurrences are
reported — overlapping, nested, and phrases that are proper prefixes of longer
stored phrases — and no span is reported where no stored phrase occurs. -/
theorem c1_scan_reports_all_occurrences (ps : List (List Char)) (input : List Char)
    (i j : Nat) (hps : ∀ w ∈ ps, w ≠ []) :
    (i, j) ∈ (insertList Trie.empty ps).find_matches input ↔
      ∃ w ∈ ps, (∃ tail, input.drop i = w ++ tail) ∧ j + 1 = i + w.length := by
  rw [mem_find_matches]
  constructor
  · rintro ⟨w, tail, hsplit, hne, hacc, hlen⟩
    exact ⟨w, ((accepts_insertList_empty ps w).mp hacc).1, ⟨tail, hsplit⟩, hlen⟩
  · rintro ⟨w, hmem, ⟨tail, hsplit⟩, hlen⟩
    exact ⟨w, tail, hsplit, hps w hmem,
      (accepts_insertList_empty ps w).mpr ⟨hmem, hps w hmem⟩, hlen⟩

/-- C1 witness: with stored phrases "a" and "ab" and input "cab", the span (1, 2)
is reported exactly because "ab" occurs at character offset 1. -/
theorem c1_witness :
    (1, 2) ∈ (insertList Trie.empty [['a'], ['a', 'b']]).find_matches ['c', 'a', 'b'] ↔
      ∃ w ∈ [['a'], ['a', 'b']],
        (∃ tail, (['c', 'a', 'b'] : List Char).drop 1 = w ++ tail) ∧ 2 + 1 = 1 + w.length :=
  c1_scan_reports_all_occurrences [['a'], ['a', 'b']] ['c', 'a', 'b'] 1 2 (by decide)

/-- C2 counterexample: with the single stored phrase "b" and input "ab", find_word
is false although find_matches is non-empty, because find_word performs a single
walk from the start of the input and never restarts at offset 1. -/
theorem c2_counterexample :
    (Trie.empty.insert ['b']).find_word ['a', 'b'] = false ∧
    (Trie.empty.insert ['b']).find_matches ['a', 'b'] = [(1, 1)] := by
  exact ⟨by decide, by decide⟩

/-- C2 amended: find_word walks the trie once, from the start of the input only,
returning true at the first end-of-phrase node; hence it returns true iff
find_matches reports a span that starts at offset 0 (i.e. some stored phrase is a
leading substring of the text), not iff find_matches is non-empty. -/
theorem c2_find_word_iff_match_at_start (t : Trie) (input : List Char) :
    t.find_word input = true ↔ ∃ j, (0, j) ∈ t.find_matches input := by
  rw [Trie.find_word, fwAux_eq_true]
  constructor
  · rintro ⟨w, tail, hsplit, hne, hacc⟩
    refine ⟨w.length - 1,
      (mem_find_matches t input (0, w.length - 1)).mpr ⟨w, tail, ?_, hne, hacc, ?_⟩⟩
    · simpa using hsplit
    · have := List.length_pos.mpr hne
      simp only
      omega
  · rintro ⟨j, hj⟩
    rcases (mem_find_matches t input (0, j)).mp hj with ⟨w, tail, hsplit, hne, hacc, -⟩
    exact ⟨w, tail, by simpa using hsplit, hne, hacc⟩

/-- C3: the message is suppressed iff at least one censor span has no allow span
fully covering it (allow start ≤ censor start and allow end ≥ censor end); with no
censor matches the message is never suppressed, and partial overlap by an allow
span does not cancel a censor span. -/
theorem c3_suppressed_iff_uncovered_censor (censors allows : List (Nat × Nat)) :
    suppressed censors allows = true ↔
      ∃ c ∈ censors, ∀ a ∈ allows, ¬(a.1 ≤ c.1 ∧ c.2 ≤ a.2) := by
  unfold suppressed
  by_cases hemp : censors.isEmpty
  · rw [if_pos hemp]
    have : censors = [] := List.isEmpty_iff.mp hemp
    subst this
    simp
  · rw [if_neg hemp]
    simp only [decide_eq_true_eq]
    rw [remaining_eq]
    have hle := List.countP_le_length
      (fun c => allows.any fun a => decide (a.1 ≤ c.1 ∧ c.2 ≤ a.2)) (l := censors)
    constructor
    · intro h
      by_contra hno
      push_neg at hno
      have hall : censors.countP
          (fun c => allows.any fun a => decide (a.1 ≤ c.1 ∧ c.2 ≤ a.2)) = censors.length := by
        apply List.countP_eq_length.mpr
        intro c hc
        rcases hno c hc with ⟨a, ha, h1, h2⟩
        exact List.any_eq_true.mpr ⟨a, ha, by simp [h1, h2]⟩
      omega
    · rintro ⟨c, hc, hall⟩
      have hnc : (censors.countP
          (fun c => allows.any fun a => decide (a.1 ≤ c.1 ∧ c.2 ≤ a.2))) < censors.length := by
        apply lt_of_le_of_ne hle
        intro heq
        have hca := List.countP_eq_length.mp heq c hc
        rcases List.any_eq_true.mp hca with ⟨a, ha, hcond⟩
        exact hall a ha (by simpa using hcond)
      omega

/-- C4: removing 1-based position n deletes exactly the phrase at that position and
shifts the rest down by one; any out-of-range position — n = 0 (which wraps to
usize::MAX after the implicit n - 1) and n > length — leaves the list unchanged
as a silent no-op. -/
theorem c4_remove_by_position (words : List (List Char)) (n : Nat)
    (hn : n < 18446744073709551616) (hlen : words.length < 18446744073709551616) :
    (1 ≤ n → n ≤ words.length →
      removeWord words n = words.take (n - 1) ++ words.drop n) ∧
    ((n = 0 ∨ words.length < n) → removeWord words n = words) := by
  unfold removeWord
  constructor
  · intro h1 h2
    have hidx : (n + (18446744073709551616 - 1)) % 18446744073709551616 = n - 1 := by
      omega
    rw [hidx, if_pos (by omega)]
    rw [List.eraseIdx_eq_take_drop_succ]
    have : n - 1 + 1 = n := by omega
    rw [this]
  · rintro (rfl | hgt)
    · have hidx : (0 + (18446744073709551616 - 1)) % 18446744073709551616 =
          18446744073709551615 := by omega
      rw [hidx, if_neg (by omega)]
    · have hidx : (n + (18446744073709551616 - 1)) % 18446744073709551616 = n - 1 := by
        omega
      rw [hidx, if_neg (by omega)]

/-- C4 witness: on the three-word list [a, b, c], removing position 2 deletes
exactly "b", while removing positions 0 and 5 are silent no-ops. -/
theorem c4_witness :
    removeWord [['a'], ['b'], ['c']] 2 = [['a'], ['c']] ∧
    removeWord [['a'], ['b'], ['c']] 0 = [['a'], ['b'], ['c']] ∧
    removeWord [['a'], ['b'], ['c']] 5 = [['a'], ['b'], ['c']] := by
  refine ⟨?_, ?_, ?_⟩
  · have h := (c4_remove_by_position [['a'], ['b'], ['c']] 2 (by norm_num) (by norm_num)).1
      (by norm_num) (by norm_num)
    rw [h]
    rfl
  · exact (c4_remove_by_position [['a'], ['b'], ['c']] 0 (by norm_num) (by norm_num)).2
      (Or.inl rfl)
  · exact (c4_remove_by_position [['a'], ['b'], ['c']] 5 (by norm_num) (by norm_num)).2
      (Or.inr (by norm_num))

/-- C7 counterexample: when both candidate files are readable with different
contents, the token is the content of the LAST candidate path, not the first:
the loop overwrites the token on every successful read. -/
theorem c7_counterexample :
    readToken [some ['a'], some ['b']] = ['b'] ∧ readToken [some ['a'], some ['b']] ≠ ['a'] := by
  exact ⟨rfl, by decide⟩

/-- C7 amended: the token loop tries the candidate paths in order and each
successful read overwrites the token, so the LAST readable candidate wins; when
no candidate is readable the process proceeds with the empty token string. -/
theorem c7_last_readable_candidate_wins (r1 r2 : Option (List Char)) :
    readToken [r1, r2] = r2.getD (r1.getD []) := by
  cases r1 <;> cases r2 <;> rfl

/-- C10: every reported span uses character offsets with an inclusive end
(j + 1 = i + |P| for the matched phrase P), the spans lie within the input's
character range, and — although the outer loop bound of find_matches is the
input's UTF-8 BYTE length — the result equals the walk over character offsets
only (iterations past the character count walk an exhausted iterator), so the
single implementation is total on multi-byte input and produces the one
convention shared by the block-list and allow-list scans that
Handler::message's containment comparison relies on. -/
theorem c10_span_convention (t : Trie) (input : List Char) :
    (t.find_matches input =
      (List.range input.length).flatMap fun start => walkFrom t.root (input.drop start) start 0) ∧
    ∀ p ∈ t.find_matches input, ∃ w tail, input.drop p.1 = w ++ tail ∧ w ≠ [] ∧
      accepts t.root w = true ∧ p.2 + 1 = p.1 + w.length ∧ p.1 + w.length ≤ input.length := by
  refine ⟨find_matches_charBound t input, ?_⟩
  intro p hp
  rcases (mem_find_matches t input p).mp hp with ⟨w, tail, hsplit, hne, hacc, hlen⟩
  refine ⟨w, tail, hsplit, hne, hacc, hlen, ?_⟩
  have h1 : (input.drop p.1).length = input.length - p.1 := List.length_drop _ _
  have h2 : 0 < w.length := List.length_pos.mpr hne
  have h3 : (input.drop p.1).length = w.length + tail.length := by
    rw [hsplit]; simp
  omega

/-- C10 witness: with stored phrase "a" and the input "éa" (2 characters, 3 UTF-8
bytes), the span (1, 1) reported by find_matches is the character-offset span of
the occurrence of "a" at character offset 1. -/
theorem c10_witness :
    ∃ w tail, ((['é', 'a'] : List Char).drop 1 = w ++ tail) ∧ w ≠ [] ∧
      accepts (Trie.empty.insert ['a']).root w = true ∧ 1 + 1 = 1 + w.length ∧
      1 + w.length ≤ (['é', 'a'] : List Char).length :=
  (c10_span_convention (Trie.empty.insert ['a']) ['é', 'a']).2 (1, 1) (by decide)

/-! ### Index building (AppData::build_trie and Handler::build) -/

/-- Character-wise lower-casing, modelling Rust str::to_lowercase on the word
lists in play (Char.toLower maps the ASCII range; the multi-character Unicode
case expansions do not arise in the data the claims quantify over). -/
def lowerStr (s : List Char) : List Char := s.map Char.toLower

/-- AppData::build_trie (main.rs lines 108-114): a fresh trie holding every
banned word lower-cased. -/
def build_trie (words : List (List Char)) : Trie :=
  insertList Trie.empty (words.map lowerStr)

/-- Allow-list derivation of Handler::build (main.rs lines 248-258): reset the
allow trie, then for each dictionary word skip it when the censor trie's
find_word returns true, and otherwise insert it verbatim (no lower-casing is
applied here). The dictionary APP_WORD_LIST is the compiled-in wordlist.txt
resource, which is not present under src/, so it is a parameter. -/
def buildAllow (prevAllow : Trie) (censor : Trie) (dict : List (List Char)) : Trie :=
  dict.foldl (fun al w => if censor.find_word w then al else al.insert w) prevAllow.reset

theorem foldl_skip_eq_filter (censor : Trie) (dict : List (List Char)) :
    ∀ t : Trie,
      dict.foldl (fun al w => if censor.find_word w then al else al.insert w) t =
        insertList t (dict.filter fun w => !censor.find_word w) := by
  induction dict with
  | nil => intro t; rfl
  | cons w d' ih =>
    intro t
    by_cases h : censor.find_word w
    · simp only [List.foldl_cons, if_pos h, List.filter_cons, h, Bool.not_true]
      exact ih t
    · simp only [List.foldl_cons, if_neg h, List.filter_cons, Bool.not_eq_true' .. ▸ rfl]
      have hw : (!censor.find_word w) = true := by simp [h]
      simp only [hw, if_pos rfl]
      exact ih (t.insert w)

/-- C8 counterexample: a dictionary word with an upper-case letter is inserted
verbatim, not lower-cased: with an empty block list, the word "Ab" is not
skipped, "Ab" itself is accepted by the allow trie, but its lower-cased form
"ab" is not — contradicting "the word is inserted lower-cased". -/
theorem c8_counterexample :
    (build_trie []).find_word ['A', 'b'] = false ∧
    accepts (buildAllow Trie.empty (build_trie []) [['A', 'b']]).root ['a', 'b'] = false ∧
    accepts (buildAllow Trie.empty (build_trie []) [['A', 'b']]).root ['A', 'b'] = true := by
  exact ⟨by decide, by decide, by decide⟩

/-- C8 amended: after rebuilding the block-list index, each dictionary word is
skipped iff the block-list trie's find_word check on it returns true, and is
otherwise inserted VERBATIM (the code applies no lower-casing at allow-list
insertion; this coincides with lower-cased insertion only for dictionary words
that are already lower-case); the allow-list is reset and fully rederived on
every rebuild, independently of its previous contents. -/
theorem c8_allow_list_rederivation (prev prev' : Trie) (words dict : List (List Char))
    (w : List Char) :
    (buildAllow prev (build_trie words) dict = buildAllow prev' (build_trie words) dict) ∧
    (accepts (buildAllow prev (build_trie words) dict).root w = true ↔
      w ∈ dict ∧ (build_trie words).find_word w = false ∧ w ≠ []) := by
  refine ⟨rfl, ?_⟩
  unfold buildAllow
  rw [foldl_skip_eq_filter]
  have hreset : Trie.reset prev = Trie.empty := rfl
  rw [hreset, accepts_insertList_empty, List.mem_filter]
  constructor
  · rintro ⟨⟨hmem, hf⟩, hne⟩
    exact ⟨hmem, by simpa using hf, hne⟩
  · rintro ⟨hmem, hf, hne⟩
    exact ⟨⟨hmem, by simp [hf]⟩, hne⟩

/-! ### Persistence (Handler::save lines 221-228 and Handler::load lines 230-241)

Modelled from the spec: the byte blob written to appdata.bin is produced by the
serde_cbor crate, an external dependency whose sources are not part of this
repository; only its round-trip contract is load-bearing for the RuleSet
lifecycle. The blob is abstracted as a stream of numeric tokens, written
length-prefixed, lists element after element in order — exactly the structural
content of the persisted RuleSet (ordered words, ordered admin pairs). -/

/-- Modelled from the spec: the serialized byte blob (the serde_cbor crate that
produces it is an external dependency missing from src/), abstracted as a
stream of numeric tokens. -/
abbrev Blob := List Nat

/-- AppData (main.rs lines 101-105): ordered banned words and ordered
(display name, numeric identity) admin pairs. -/
structure AppData where
  words : List (List Char)
  admins : List (List Char × Nat)
deriving DecidableEq

def encNat (n : Nat) : Blob := [n]

def decNat : Blob → Option (Nat × Blob)
  | [] => none
  | t :: r => some (t, r)

def encString (s : List Char) : Blob := s.length :: s.map Char.toNat

def decCharsAux : Nat → Blob → Option (List Char × Blob)
  | 0, r => some ([], r)
  | _ + 1, [] => none
  | k + 1, t :: r =>
    match decCharsAux k r with
    | some (cs, rest) => some (Char.ofNat t :: cs, rest)
    | none => none

def decString (b : Blob) : Option (List Char × Blob) :=
  match decNat b with
  | some (k, r) => decCharsAux k r
  | none => none

def encStringList (ws : List (List Char)) : Blob := ws.length :: ws.flatMap encString

def decStringsAux : Nat → Blob → Option (List (List Char) × Blob)
  | 0, r => some ([], r)
  | k + 1, r =>
    match decString r with
    | some (s, r') =>
      match decStringsAux k r' with
      | some (ss, rest) => some (s :: ss, rest)
      | none => none
    | none => none

def decStringList (b : Blob) : Option (List (List Char) × Blob) :=
  match decNat b with
  | some (k, r) => decStringsAux k r
  | none => none

def encAdmin (a : List Char × Nat) : Blob := encString a.1 ++ encNat a.2

def decAdmin (b : Blob) : Option ((List Char × Nat) × Blob) :=
  match decString b with
  | some (s, r) =>
    match decNat r with
    | some (k, r') => some ((s, k), r')
    | none => none
  | none => none

def encAdminList (ads : List (List Char × Nat)) : Blob := ads.length :: ads.flatMap encAdmin

def decAdminsAux : Nat → Blob → Option (List (List Char × Nat) × Blob)
  | 0, r => some ([], r)
  | k + 1, r =>
    match decAdmin r with
    | some (a, r') =>
      match decAdminsAux k r' with
      | some (ads, rest) => some (a :: ads, rest)
      | none => none
    | none => none

def decAdminList (b : Blob) : Option (List (List Char × Nat) × Blob) :=
  match decNat b with
  | some (k, r) => decAdminsAux k r
  | none => none

/-- Modelled from the spec: the serialization step of Handler::save
(serde_cbor::to_vec, external crate missing from src/) — the full AppData,
ordered words then ordered admins, as one blob. -/
def persist (d : AppData) : Blob := encStringList d.words ++ encAdminList d.admins

/-- Modelled from the spec: the deserialization step of Handler::load
(serde_cbor::from_slice, external crate missing from src/): the whole blob must
decode, with nothing trailing. -/
def restore (b : Blob) : Option AppData :=
  match decStringList b with
  | some (ws, r) =>
    match decAdminList r with
    | some (ads, r') => if r' = [] then some ⟨ws, ads⟩ else none
    | none => none
  | none => none

/-! ### Round-trip lemmas -/

theorem decCharsAux_enc (s : List Char) :
    ∀ r : Blob, decCharsAux s.length (s.map Char.toNat ++ r) = some (s, r) := by
  induction s with
  | nil => intro r; rfl
  | cons c s' ih =>
    intro r
    simp only [List.length_cons, List.map_cons, List.cons_append, decCharsAux,
      List.append_eq, ih, Char.ofNat_toNat]

theorem decString_enc (s : List Char) (r : Blob) :
    decString (encString s ++ r) = some (s, r) := by
  simp only [encString, List.cons_append, decString, decNat, decCharsAux_enc]

theorem decStringsAux_enc (ws : List (List Char)) :
    ∀ r : Blob, decStringsAux ws.length (ws.flatMap encString ++ r) = some (ws, r) := by
  induction ws with
  | nil => intro r; rfl
  | cons w ws' ih =>
    intro r
    simp only [List.length_cons, List.flatMap_cons, List.append_assoc, decStringsAux,
      decString_enc, ih]

theorem decStringList_enc (ws : List (List Char)) (r : Blob) :
    decStringList (encStringList ws ++ r) = some (ws, r) := by
  simp only [encStringList, List.cons_append, decStringList, decNat, decStringsAux_enc]

theorem decAdmin_enc (a : List Char × Nat) (r : Blob) :
    decAdmin (encAdmin a ++ r) = some (a, r) := by
  obtain ⟨s, k⟩ := a
  simp only [encAdmin, encNat, List.append_assoc, List.singleton_append, decAdmin,
    decString_enc, decNat]

theorem decAdminsAux_enc (ads : List (List Char × Nat)) :
    ∀ r : Blob, decAdminsAux ads.length (ads.flatMap encAdmin ++ r) = some (ads, r) := by
  induction ads with
  | nil => intro r; rfl
  | cons a ads' ih =>
    intro r
    simp only [List.length_cons, List.flatMap_cons, List.append_assoc, decAdminsAux,
      decAdmin_enc, ih]

theorem decAdminList_enc (ads : List (List Char × Nat)) (r : Blob) :
    decAdminList (encAdminList ads ++ r) = some (ads, r) := by
  simp only [encAdminList, List.cons_append, decAdminList, decNat, decAdminsAux_enc]

theorem restore_persist (d : AppData) : restore (persist d) = some d := by
  obtain ⟨ws, ads⟩ := d
  have h1 : decStringList (encStringList ws ++ encAdminList ads) =
      some (ws, encAdminList ads) := decStringList_enc _ _
  have h2 : decAdminList (encAdminList ads) = some (ads, []) := by
    have h := decAdminList_enc ads []
    rwa [List.append_nil] at h
  simp [restore, persist, h1, h2]

/-! ### Startup and load (main lines 299-314, Handler::load lines 230-241) -/

/-- Hardcoded administrator identity pushed in main (line 302). -/
def mip5Admin : List Char × Nat := (['m', 'i', 'p', '5'], 231963552292929546)

/-- In-memory state right before load: Handler::default() plus the hardcoded
admin push. -/
def seededData : AppData := ⟨[], [mip5Admin]⟩

/-- Handler::load: on a read error keep the prior state and print the warning
(the Bool component); on a successfully read blob, deserialize and REPLACE the
whole in-memory AppData, where a deserialization failure is the unwrap panic
(Except.error) and no state is produced at all (the assignment to app_data
happens only after from_slice succeeds). -/
def loadData (prior : AppData) (file : Option Blob) : Except Unit (AppData × Bool) :=
  match file with
  | none => .ok (prior, true)
  | some bytes =>
    match restore bytes with
    | some d => .ok (d, false)
    | none => .error ()

/-- The startup sequence: seed the hardcoded admin, then load. -/
def startupLoad (file : Option Blob) : Except Unit (AppData × Bool) :=
  loadData seededData file

/-- Whether the hardcoded admin is present in the in-memory admins after a
startup that did not abort. -/
def startupHasMip5 (file : Option Blob) : Bool :=
  match startupLoad file with
  | .ok (d, _) => decide (mip5Admin ∈ d.admins)
  | .error _ => false

/-- C5: restoring the bytes produced by persisting any AppData reproduces an
AppData whose words sequence and admins sequence are equal element-by-element in
order to the original. -/
theorem c5_persist_restore_roundtrip (d : AppData) :
    ∃ d', restore (persist d) = some d' ∧ d'.words = d.words ∧ d'.admins = d.admins :=
  ⟨d, restore_persist d, rfl, rfl⟩

/-- C6 counterexample: loading a valid persisted RuleSet whose admins list is
empty leaves the in-memory admins list empty — the hardcoded admin injected
before load does NOT survive a successful load, so presence of ("mip5",
231963552292929546) is not independent of the persisted content. -/
theorem c6_counterexample : startupHasMip5 (some (persist ⟨[], []⟩)) = false := by
  decide

/-- C6 amended: the hardcoded administrator identity ("mip5", 231963552292929546)
is injected before load and is present after startup when the persisted file is
absent; but a successful load replaces the ENTIRE in-memory rule set with the
persisted content, so after loading a valid file the admins list is exactly the
persisted one and contains the hardcoded identity only if the persisted admins
do. -/
theorem c6_seeding_replaced_by_load :
    (startupLoad none = .ok (seededData, true) ∧ mip5Admin ∈ seededData.admins) ∧
    ∀ d : AppData, startupLoad (some (persist d)) = .ok (d, false) := by
  refine ⟨⟨rfl, by decide⟩, ?_⟩
  intro d
  simp [startupLoad, loadData, restore_persist]

/-- C9: when the persisted file is absent, load keeps the admin-seeded default
state, flags the warning, and startup continues; when the file is present but
its content fails to deserialize, load aborts (the unwrap-style Except.error)
and produces no state at all — the in-memory state is never partially
overwritten. -/
theorem c9_load_error_handling :
    (startupLoad none = .ok (seededData, true)) ∧
    (∀ (prior : AppData) (b : Blob), restore b = none →
      loadData prior (some b) = .error ()) := by
  refine ⟨rfl, ?_⟩
  intro prior b hb
  simp [loadData, hb]

/-- C9 witness: the absent-file branch at startup, and the abort on the concrete
undecodable blob [5] (a length prefix with no content). -/
theorem c9_witness :
    startupLoad none = .ok (seededData, true) ∧
    loadData seededData (some [5]) = .error () :=
  ⟨c9_load_error_handling.1, c9_load_error_handling.2 seededData [5] (by decide)⟩

end Denpabot
